import Mathlib

/-!
# Verification of the wordle-plugin core against its specification

Shallow embedding of the guess-scoring engine, the pinyin parser, the
session store and the leaderboard aggregator of the wordle-plugin
repository, together with theorems settling the frozen claims about it.

The definitions mirror the JavaScript sources:
* `src/utils/utils.js` (`checkGuess`, `checkIdiomGuess`),
* `src/utils/data/equation.js` (`checkGuess`),
* the idiom game module (`checkIdiomGuess`, `processGuess`),
* `src/utils/games/word.js` (`processGuess`),
* `src/utils/data/pinyin.js` (`parsePinyin`, `parsePinyinString`),
* `src/utils/data/db.js` (`getGameData`, `saveGameData`, `deleteGameData`),
* `src/utils/games/base.js` (`_getGameContext`),
* `src/utils/data/leaderboard.js` (`recordGameResult`, `getLeaderboard`,
  `getGlobalLeaderboard`).

JavaScript strings become `String`/`List Char`, objects become structures,
plain-object frequency tables keyed by single characters become bags
(`List` with `count`), object key insertion order becomes association-list
order, and `Array.prototype.sort` (stable, comparator-driven) becomes a
stable insertion sort driven by the same comparator.
-/

/-- The per-cell feedback statuses used by every scorer in the repository.
The JavaScript code uses the string literals `'correct'`, `'present'`,
`'absent'` and the provisional `'pending'`. -/
inductive Status where
  | correct
  | present
  | absent
  | pending
deriving DecidableEq, Repr

/-- One cell of a scoring result: the guess symbol at that position plus its
status.  The symbol type is a parameter because the word variant can carry
`undefined` (modelled as `Option Char`) while the equation and idiom
variants always carry a character. -/
structure GCell (α : Type) where
  letter : α
  status : Status
deriving DecidableEq, Repr

namespace Scoring

variable {α : Type} [DecidableEq α]

/-- First pass of the two-pass scorer: positions where guess and target
agree are marked `correct`, all others `pending`
(`utils.js` lines 68-77, `equation.js` lines 324-333, idiom variants). -/
def markCorrect (gs ts : List α) : List (GCell α) :=
  (gs.zip ts).map fun p => if p.1 = p.2 then ⟨p.1, .correct⟩ else ⟨p.1, .pending⟩

/-- The frequency table built during the first pass: one occurrence of the
target symbol for every position that was not marked `correct`
(`freq[t] = (freq[t] || 0) + 1`), modelled as a bag. -/
def remainingFreq (gs ts : List α) : List α :=
  (gs.zip ts).filterMap fun p => if p.1 = p.2 then none else some p.2

/-- Second pass: each `pending` cell becomes `present` while the frequency
table still holds its guess symbol (decrementing the table), else `absent`
(`utils.js` lines 80-90 and the identical loops in the other variants). -/
def resolvePending : List (GCell α) → List α → List (GCell α)
  | [], _ => []
  | c :: rest, bag =>
    if c.status = .pending then
      if bag.contains c.letter then
        ⟨c.letter, .present⟩ :: resolvePending rest (bag.erase c.letter)
      else
        ⟨c.letter, .absent⟩ :: resolvePending rest bag
    else
      c :: resolvePending rest bag

/-- The shared two-pass scoring skeleton used by all three variants. -/
def scoreCore (gs ts : List α) : List (GCell α) :=
  resolvePending (markCorrect gs ts) (remainingFreq gs ts)

/-- Number of cells whose letter is `a` and whose status is `correct` or
`present`. -/
def hitCount : List (GCell α) → α → Nat
  | [], _ => 0
  | c :: rest, a =>
    (if c.letter = a ∧ (c.status = .correct ∨ c.status = .present) then 1 else 0)
      + hitCount rest a

/-- Number of cells whose letter is `a` and whose status is `correct`. -/
def correctCount : List (GCell α) → α → Nat
  | [], _ => 0
  | c :: rest, a =>
    (if c.letter = a ∧ c.status = .correct then 1 else 0) + correctCount rest a

end Scoring

namespace Scoring

variable {α : Type} [DecidableEq α]

theorem resolvePending_map_letter (cells : List (GCell α)) (bag : List α) :
    (resolvePending cells bag).map GCell.letter = cells.map GCell.letter := by
  induction cells generalizing bag with
  | nil => simp [resolvePending]
  | cons c rest ih =>
    by_cases hp : c.status = Status.pending
    · by_cases hc : c.letter ∈ bag
      · simp [resolvePending, hp, hc, ih]
      · simp [resolvePending, hp, hc, ih]
    · simp [resolvePending, hp, ih]

theorem resolvePending_length (cells : List (GCell α)) (bag : List α) :
    (resolvePending cells bag).length = cells.length := by
  have h := congrArg List.length (resolvePending_map_letter cells bag)
  simpa using h

theorem resolvePending_status (cells : List (GCell α)) (bag : List α)
    (h : ∀ x ∈ cells, x.status = Status.correct ∨ x.status = Status.pending) :
    ∀ y ∈ resolvePending cells bag,
      y.status = Status.correct ∨ y.status = Status.present ∨ y.status = Status.absent := by
  induction cells generalizing bag with
  | nil => simp [resolvePending]
  | cons c rest ih =>
    have hrest : ∀ x ∈ rest, x.status = Status.correct ∨ x.status = Status.pending :=
      fun x hx => h x (List.mem_cons_of_mem _ hx)
    by_cases hp : c.status = Status.pending
    · by_cases hc : bag.contains c.letter
      · intro y hy
        simp only [resolvePending, hp, if_true, hc] at hy
        rcases List.mem_cons.mp hy with rfl | hy
        · tauto
        · exact ih (bag.erase c.letter) hrest y hy
      · intro y hy
        simp only [resolvePending, hp, if_true, hc] at hy
        rcases List.mem_cons.mp hy with rfl | hy
        · tauto
        · exact ih bag hrest y hy
    · intro y hy
      simp only [resolvePending, hp, if_false] at hy
      rcases List.mem_cons.mp hy with rfl | hy
      · rcases h y (List.mem_cons_self _ _) with h1 | h1 <;> tauto
      · exact ih bag hrest y hy

theorem markCorrect_status (gs ts : List α) :
    ∀ x ∈ markCorrect gs ts, x.status = Status.correct ∨ x.status = Status.pending := by
  intro x hx
  rcases List.mem_map.mp hx with ⟨p, _, rfl⟩
  by_cases h : p.1 = p.2 <;> simp [h]

theorem hitCount_cons (c : GCell α) (rest : List (GCell α)) (a : α) :
    hitCount (c :: rest) a
      = (if c.letter = a ∧ (c.status = Status.correct ∨ c.status = Status.present)
          then 1 else 0) + hitCount rest a := rfl

/-- Number of occurrences of `a` in a list, written out explicitly so that
claim statements do not depend on `BEq` instances. -/
def occCount : List α → α → Nat
  | [], _ => 0
  | b :: rest, a => (if b = a then 1 else 0) + occCount rest a

theorem count_eq_occCount (l : List α) (a : α) : l.count a = occCount l a := by
  induction l with
  | nil => rfl
  | cons b rest ih =>
    rw [List.count_cons, occCount, ih]
    by_cases hb : b = a
    · rw [if_pos (by simp [hb]), if_pos hb]
      omega
    · rw [if_neg (by simp [hb]), if_neg hb]
      omega

theorem occCount_map_some (l : List Char) (c : Char) :
    occCount (l.map some) (some c) = occCount l c := by
  induction l with
  | nil => rfl
  | cons b rest ih =>
    rw [List.map_cons, occCount, occCount, ih]
    by_cases hb : b = c
    · rw [if_pos (by simp [hb]), if_pos hb]
    · rw [if_neg (by simp [hb]), if_neg hb]

theorem hitCount_resolvePending (cells : List (GCell α)) (bag : List α) (a : α) :
    hitCount (resolvePending cells bag) a ≤ hitCount cells a + bag.count a := by
  induction cells generalizing bag with
  | nil => simp [resolvePending, hitCount]
  | cons c rest ih =>
    by_cases hp : c.status = Status.pending
    · by_cases hc : c.letter ∈ bag
      · have hres : resolvePending (c :: rest) bag
            = ⟨c.letter, .present⟩ :: resolvePending rest (bag.erase c.letter) := by
          simp [resolvePending, hp, hc]
        rw [hres, hitCount_cons, hitCount_cons]
        by_cases ha : c.letter = a
        · subst ha
          have hpos : 0 < bag.count c.letter := by
            rw [List.count_pos_iff]; exact hc
          have herase : (bag.erase c.letter).count c.letter = bag.count c.letter - 1 :=
            List.count_erase_self c.letter bag
          have hstep := ih (bag.erase c.letter)
          rw [if_pos (by simp), if_neg (by simp [hp])]
          omega
        · have herase : (bag.erase c.letter).count a = bag.count a :=
            List.count_erase_of_ne (fun h => ha h.symm) bag
          have hstep := ih (bag.erase c.letter)
          rw [if_neg (by simp [ha]), if_neg (by simp [ha])]
          omega
      · have hres : resolvePending (c :: rest) bag
            = ⟨c.letter, .absent⟩ :: resolvePending rest bag := by
          simp [resolvePending, hp, hc]
        rw [hres, hitCount_cons, hitCount_cons]
        have hstep := ih bag
        rw [if_neg (by simp), if_neg (by simp [hp])]
        omega
    · have hres : resolvePending (c :: rest) bag = c :: resolvePending rest bag := by
        simp [resolvePending, hp]
      rw [hres, hitCount_cons, hitCount_cons]
      have hstep := ih bag
      omega

theorem hitCount_markCorrect_add_freq (L : List (α × α)) (a : α) :
    hitCount (L.map fun p => if p.1 = p.2 then (⟨p.1, .correct⟩ : GCell α)
        else ⟨p.1, .pending⟩) a
      + (L.filterMap fun p => if p.1 = p.2 then none else some p.2).count a
    = (L.map Prod.snd).count a := by
  induction L with
  | nil => simp [hitCount]
  | cons p rest ih =>
    by_cases h : p.1 = p.2
    · have hf : (fun p : α × α => if p.1 = p.2 then (none : Option α)
          else some p.2) p = none := by simp [h]
      rw [List.map_cons, if_pos h,
        List.filterMap_cons_none
          (f := fun q : α × α => if q.1 = q.2 then (none : Option α) else some q.2) hf,
        List.map_cons, hitCount_cons]
      by_cases ha : p.2 = a
      · rw [if_pos (by simp [h, ha]), List.count_cons, if_pos (by simp [ha])]
        omega
      · rw [if_neg (by simp [h, ha]), List.count_cons, if_neg (by simp [ha])]
        omega
    · have hf : (fun p : α × α => if p.1 = p.2 then (none : Option α)
          else some p.2) p = some p.2 := by simp [h]
      rw [List.map_cons, if_neg h,
        List.filterMap_cons_some
          (f := fun q : α × α => if q.1 = q.2 then (none : Option α) else some q.2) hf,
        List.map_cons, hitCount_cons]
      by_cases ha : p.2 = a
      · rw [if_neg (by simp), List.count_cons, if_pos (by simp [ha]),
          List.count_cons, if_pos (by simp [ha])]
        omega
      · rw [if_neg (by simp), List.count_cons, if_neg (by simp [ha]),
          List.count_cons, if_neg (by simp [ha])]
        omega

theorem hitCount_scoreCore_le (gs ts : List α) (h : gs.length = ts.length) (a : α) :
    hitCount (scoreCore gs ts) a ≤ ts.count a := by
  have h1 := hitCount_resolvePending (markCorrect gs ts) (remainingFreq gs ts) a
  have h2 := hitCount_markCorrect_add_freq (gs.zip ts) a
  have h3 : (gs.zip ts).map Prod.snd = ts :=
    List.map_snd_zip gs ts (le_of_eq h.symm)
  unfold scoreCore
  unfold markCorrect remainingFreq at *
  rw [h3] at h2
  omega

end Scoring

namespace Scoring

variable {α : Type} [DecidableEq α]

theorem scoreCore_map_letter (gs ts : List α) :
    (scoreCore gs ts).map GCell.letter = (gs.zip ts).map Prod.fst := by
  unfold scoreCore
  rw [resolvePending_map_letter]
  unfold markCorrect
  rw [List.map_map]
  apply List.map_congr_left
  intro p _
  by_cases h : p.1 = p.2 <;> simp [h]

theorem scoreCore_length (gs ts : List α) :
    (scoreCore gs ts).length = (gs.zip ts).length := by
  unfold scoreCore
  rw [resolvePending_length]
  unfold markCorrect
  rw [List.length_map]

theorem scoreCore_status (gs ts : List α) :
    ∀ y ∈ scoreCore gs ts,
      y.status = Status.correct ∨ y.status = Status.present ∨ y.status = Status.absent :=
  resolvePending_status _ _ (markCorrect_status gs ts)

end Scoring

namespace Utils

/-- ASCII case folding for one character, the shallow embedding of the
per-character effect of `String.prototype.toLowerCase` on the latin-letter
words this game uses. -/
def lowerChars (s : String) : List Char := s.toList.map Char.toLower

/-- The sequence `guess[0], …, guess[n-1]` of JavaScript character reads:
positions beyond the guess read `undefined`, modelled as `none`
(`utils.js` `checkGuess` iterates over `target.length` positions). -/
def optPad (l : List Char) (n : Nat) : List (Option Char) :=
  (List.range n).map l.get?

/-- `utils.js` lines 49-93, the word branch of `checkGuess`: lower-case both
strings, then run the two-pass scorer over the `target.length` positions,
with no length guard.  `guess[i]` may be `undefined` (`none`). -/
def checkGuess (guess target : String) : List (GCell (Option Char)) :=
  Scoring.scoreCore (optPad (lowerChars guess) (lowerChars target).length)
    ((lowerChars target).map some)

/-- `utils.js` lines 200-235, `checkIdiomGuess`: empty or length-mismatched
inputs yield `[]`, otherwise the same two-pass scorer over the idiom
characters. -/
def checkIdiomGuess (guess target : String) : List (GCell Char) :=
  if guess = "" ∨ target = "" ∨ guess.length ≠ target.length then []
  else Scoring.scoreCore guess.toList target.toList

theorem optPad_self (l : List Char) : optPad l l.length = l.map some := by
  unfold optPad
  induction l with
  | nil => simp
  | cons a rest ih =>
    rw [List.length_cons, List.range_succ_eq_map, List.map_cons, List.map_map,
      List.map_cons]
    refine congrArg₂ _ rfl ?_
    rw [← ih]
    apply List.map_congr_left
    intro i _
    simp [Function.comp]

theorem optPad_length (l : List Char) (n : Nat) : (optPad l n).length = n := by
  simp [optPad]

end Utils

namespace Equation

/-- `equation.js` lines 315-350, `checkGuess`: empty or length-mismatched
inputs yield `[]`, otherwise the two-pass scorer over the literal equation
characters (case-sensitive). -/
def checkGuess (guess target : String) : List (GCell Char) :=
  if guess = "" ∨ target = "" ∨ guess.length ≠ target.length then []
  else Scoring.scoreCore guess.toList target.toList

end Equation

theorem sanity_word_scorer_no_length_guard : Utils.checkGuess "abc" "ab" ≠ [] := by
  decide

theorem sanity_word_scorer_speed_erase : (Utils.checkGuess "speed" "erase").map GCell.status
    = [Status.present, Status.absent, Status.present, Status.present, Status.absent] := by
  decide

theorem sanity_idiom_scorer_length_guard : Utils.checkIdiomGuess "ab" "abc" = [] := by
  decide

theorem sanity_equation_scorer : Equation.checkGuess "1+2=3" "1+3=4" ≠ [] := by
  decide

namespace Pinyin

/-- The result of `parsePinyin` (`pinyin.js` lines 11-77): an object
`{initial, final, tone}`. -/
structure Syllable where
  initial : String
  final : String
  tone : Nat
deriving DecidableEq, Repr

/-- The `toneMap`/`baseMap` tables of `pinyin.js` lines 21-43: a tone-marked
vowel maps to its tone digit and base letter (the `ü` family maps to the
base letter `u`, exactly as in the source). -/
def toneMark : Char → Option (Nat × Char)
  | 'ā' => some (1, 'a') | 'á' => some (2, 'a') | 'ǎ' => some (3, 'a') | 'à' => some (4, 'a')
  | 'ē' => some (1, 'e') | 'é' => some (2, 'e') | 'ě' => some (3, 'e') | 'è' => some (4, 'e')
  | 'ī' => some (1, 'i') | 'í' => some (2, 'i') | 'ǐ' => some (3, 'i') | 'ì' => some (4, 'i')
  | 'ō' => some (1, 'o') | 'ó' => some (2, 'o') | 'ǒ' => some (3, 'o') | 'ò' => some (4, 'o')
  | 'ū' => some (1, 'u') | 'ú' => some (2, 'u') | 'ǔ' => some (3, 'u') | 'ù' => some (4, 'u')
  | 'ǖ' => some (1, 'u') | 'ǘ' => some (2, 'u') | 'ǚ' => some (3, 'u') | 'ǜ' => some (4, 'u')
  | _ => none

/-- The diacritic-stripping loop of `pinyin.js` lines 31-48: records the tone
of each tone-marked vowel seen (the last one wins) and rebuilds the text
with base letters. -/
def stripTones (l : List Char) : Nat × List Char :=
  l.foldl (fun acc c =>
    match toneMark c with
    | some tb => (tb.1, acc.2 ++ [tb.2])
    | none => (acc.1, acc.2 ++ [c])) (0, [])

/-- A trailing ASCII tone digit 1-4 (the `/([1-4])$/` match). -/
def digitTone : Char → Option Nat
  | '1' => some 1 | '2' => some 2 | '3' => some 3 | '4' => some 4
  | _ => none

/-- `cleanedPinyin.replace(/[1-4]$/, '')`. -/
def removeTrailingDigit (l : List Char) : List Char :=
  match l.getLast? with
  | some c => if (digitTone c).isSome then l.dropLast else l
  | none => l

/-- The ordered initials table of `pinyin.js` lines 60-61; `zh`, `ch`, `sh`
appear before `z`, `c`, `s`. -/
def initials : List (List Char) :=
  [['b'], ['p'], ['m'], ['f'], ['d'], ['t'], ['n'], ['l'], ['g'], ['k'], ['h'],
   ['j'], ['q'], ['x'], ['z', 'h'], ['c', 'h'], ['s', 'h'], ['r'],
   ['z'], ['c'], ['s'], ['y'], ['w']]

/-- `s` starts with `pre` (the `cleanedPinyin.startsWith(init)` test). -/
def leadsWith : List Char → List Char → Bool
  | _, [] => true
  | [], _ :: _ => false
  | a :: as, b :: bs => a = b && leadsWith as bs

/-- The initial-extraction loop of `pinyin.js` lines 64-71: the first table
entry that prefixes the cleaned text is the initial, the rest is the final. -/
def extractInitial (s : List Char) : List Char × List Char :=
  match initials.find? (fun ini => leadsWith s ini) with
  | some ini => (ini, s.drop ini.length)
  | none => ([], s)

/-- `String.prototype.trim`: drop whitespace from both ends. -/
def jsTrim (l : List Char) : List Char :=
  ((l.dropWhile Char.isWhitespace).reverse.dropWhile Char.isWhitespace).reverse

/-- `pinyin.js` lines 11-77, `parsePinyin`: strip the tone diacritic (or a
trailing tone digit of the trimmed input), then split the cleaned text at
the longest matching initial. -/
def parsePinyin (pinyin : String) : Syllable :=
  if pinyin = "" then ⟨"", "", 0⟩
  else
    let p := jsTrim pinyin.toList
    let st := stripTones p
    let tc : Nat × List Char :=
      if st.1 = 0 then
        match p.getLast? with
        | some c =>
          match digitTone c with
          | some d => (d, removeTrailingDigit st.2)
          | none => (0, st.2)
        | none => (0, st.2)
      else st
    let er := extractInitial tc.2
    ⟨String.mk er.1, String.mk er.2, tc.1⟩

/-- The maximal whitespace-free runs of a character list, in order. -/
def wsTokens : List Char → List Char → List String
  | [], cur => if cur = [] then [] else [String.mk cur.reverse]
  | c :: rest, cur =>
    if Char.isWhitespace c then
      if cur = [] then wsTokens rest [] else String.mk cur.reverse :: wsTokens rest []
    else wsTokens rest (c :: cur)

/-- `trimmed.split(/\s+/)`: on a trimmed non-empty string this is the list of
maximal whitespace-free runs; on the empty string it is `[""]`. -/
def splitWS (l : List Char) : List String :=
  if l = [] then [""] else wsTokens l []

/-- `pinyin.js` lines 84-94, `parsePinyinString`: split the trimmed input on
whitespace and parse each token. -/
def parsePinyinString (s : String) : List Syllable :=
  if s = "" then []
  else (splitWS (jsTrim s.toList)).map parsePinyin

end Pinyin

theorem sanity_parsePinyin_diacritic : Pinyin.parsePinyin "zhōng" = ⟨"zh", "ong", 1⟩ := by
  decide

theorem sanity_parsePinyin_digit : Pinyin.parsePinyin "zhong1" = ⟨"zh", "ong", 1⟩ := by
  decide

theorem sanity_parsePinyinString : Pinyin.parsePinyinString "yī fān fēng shùn"
    = [⟨"y", "i", 1⟩, ⟨"f", "an", 1⟩, ⟨"f", "eng", 1⟩, ⟨"sh", "un", 4⟩] := by
  decide

namespace IdiomGame

open Pinyin

/-- The per-position pinyin feedback of the idiom game module
(`checkIdiomGuess` lines 48-116): independent statuses for the syllable
initial, the final and the tone. -/
structure PinyinInfo where
  initial : Status
  final : Status
  tone : Status
deriving DecidableEq, Repr

/-- The `for (let j …)` search loops: is there a position `j ≠ i` (inside the
parsed target pinyin array) whose syllable satisfies `p`?  The bound is the
idiom character length, exactly as in the source. -/
def existsOther (length i : Nat) (tArr : List Syllable) (p : Syllable → Bool) : Bool :=
  (List.range length).any fun j =>
    decide (j ≠ i) && (match tArr.get? j with
      | some py => p py
      | none => false)

/-- The initial-status rule (`checkIdiomGuess` lines 55-69). -/
def initialStatus (length i : Nat) (gp tp : Syllable) (tArr : List Syllable) : Status :=
  if gp.initial = tp.initial then .correct
  else if existsOther length i tArr (fun py => py.initial == gp.initial) then .present
  else .absent

/-- The final-status rule (`checkIdiomGuess` lines 71-85). -/
def finalStatus (length i : Nat) (gp tp : Syllable) (tArr : List Syllable) : Status :=
  if gp.final = tp.final then .correct
  else if existsOther length i tArr (fun py => py.final == gp.final) then .present
  else .absent

/-- The tone-status rule (`checkIdiomGuess` lines 87-115): equal tones with
equal finals are `correct`; equal tones with different finals are `present`
when some other position carries both that tone and the guess final, else
`correct` (the "tone digit itself matches" fallback); different tones are
`present` when the tone occurs at some other position, else `absent`. -/
def toneStatus (length i : Nat) (gp tp : Syllable) (tArr : List Syllable) : Status :=
  if gp.tone = tp.tone then
    if gp.final = tp.final then .correct
    else if existsOther length i tArr
        (fun py => py.tone == gp.tone && py.final == gp.final) then .present
    else .correct
  else if existsOther length i tArr (fun py => py.tone == gp.tone) then .present
  else .absent

/-- The `pinyinInfo` object for position `i`: built only when both the guess
and the target pinyin arrays cover position `i`, otherwise its fields stay
`null` (`none` here). -/
def pinyinInfoAt (length i : Nat) (gArr tArr : List Syllable) : Option PinyinInfo :=
  match gArr.get? i, tArr.get? i with
  | some gp, some tp =>
    some ⟨initialStatus length i gp tp tArr, finalStatus length i gp tp tArr,
      toneStatus length i gp tp tArr⟩
  | _, _ => none

/-- One cell of the idiom game result: the guess character (the source also
duplicates it in a `letter` field for the renderer), its character-level
two-pass status, and the per-position pinyin feedback. -/
structure IdiomCell where
  char : Char
  status : Status
  pinyin : Option PinyinInfo
deriving DecidableEq, Repr

/-- Pair every character cell with the pinyin feedback of its position. -/
def attachPinyin (length : Nat) (gArr tArr : List Syllable) :
    Nat → List (GCell Char) → List IdiomCell
  | _, [] => []
  | i, c :: rest =>
    ⟨c.letter, c.status, pinyinInfoAt length i gArr tArr⟩
      :: attachPinyin length gArr tArr (i + 1) rest

/-- The idiom game module's `checkIdiomGuess(guess, target, guessPinyin,
targetPinyin)` (lines 27-150): empty or length-mismatched idioms yield `[]`;
otherwise the character-level two-pass score of the idiom characters is
paired with the per-position pinyin feedback computed from the parsed
pinyin strings. -/
def checkIdiomGuess (guess target guessPinyin targetPinyin : String) : List IdiomCell :=
  if guess = "" ∨ target = "" ∨ guess.length ≠ target.length then []
  else
    attachPinyin target.length (parsePinyinString guessPinyin)
      (parsePinyinString targetPinyin) 0
      (Scoring.scoreCore guess.toList target.toList)

/-- Number of cells whose character is `a` and whose status is `correct` or
`present`, for idiom cells. -/
def hitCount : List IdiomCell → Char → Nat
  | [], _ => 0
  | c :: rest, a =>
    (if c.char = a ∧ (c.status = .correct ∨ c.status = .present) then 1 else 0)
      + hitCount rest a

theorem hitCount_attachPinyin (length : Nat) (gArr tArr : List Syllable)
    (n : Nat) (cells : List (GCell Char)) (a : Char) :
    hitCount (attachPinyin length gArr tArr n cells) a = Scoring.hitCount cells a := by
  induction cells generalizing n with
  | nil => rfl
  | cons c rest ih =>
    rw [attachPinyin, hitCount, Scoring.hitCount_cons, ih]

theorem attachPinyin_map_char (length : Nat) (gArr tArr : List Syllable)
    (n : Nat) (cells : List (GCell Char)) :
    (attachPinyin length gArr tArr n cells).map IdiomCell.char
      = cells.map GCell.letter := by
  induction cells generalizing n with
  | nil => rfl
  | cons c rest ih =>
    rw [attachPinyin, List.map_cons, List.map_cons, ih]

theorem attachPinyin_map_status (length : Nat) (gArr tArr : List Syllable)
    (n : Nat) (cells : List (GCell Char)) :
    (attachPinyin length gArr tArr n cells).map IdiomCell.status
      = cells.map GCell.status := by
  induction cells generalizing n with
  | nil => rfl
  | cons c rest ih =>
    rw [attachPinyin, List.map_cons, List.map_cons, ih]

theorem attachPinyin_length (length : Nat) (gArr tArr : List Syllable)
    (n : Nat) (cells : List (GCell Char)) :
    (attachPinyin length gArr tArr n cells).length = cells.length := by
  induction cells generalizing n with
  | nil => rfl
  | cons c rest ih =>
    rw [attachPinyin, List.length_cons, List.length_cons, ih]

theorem attachPinyin_get (length : Nat) (gArr tArr : List Syllable)
    (n : Nat) (cells : List (GCell Char)) (i : Nat)
    (h : i < (attachPinyin length gArr tArr n cells).length)
    (h2 : i < cells.length) :
    (attachPinyin length gArr tArr n cells).get ⟨i, h⟩
      = ⟨(cells.get ⟨i, h2⟩).letter, (cells.get ⟨i, h2⟩).status,
          pinyinInfoAt length (n + i) gArr tArr⟩ := by
  induction cells generalizing n i with
  | nil => simp at h2
  | cons c rest ih =>
    cases i with
    | zero => simp [attachPinyin]
    | succ k =>
      have hk : k < (attachPinyin length gArr tArr (n + 1) rest).length := by
        rw [attachPinyin_length]
        exact Nat.lt_of_succ_lt_succ h2
      have hk2 : k < rest.length := Nat.lt_of_succ_lt_succ h2
      have harith : n + 1 + k = n + (k + 1) := by omega
      have hrec := ih (n + 1) k hk hk2
      rw [harith] at hrec
      simpa [attachPinyin] using hrec

theorem existsOther_iff (length i : Nat) (tArr : List Syllable) (p : Syllable → Bool) :
    existsOther length i tArr p = true ↔
      ∃ j, j < length ∧ j ≠ i ∧ ∃ py, tArr.get? j = some py ∧ p py = true := by
  unfold existsOther
  rw [List.any_eq_true]
  constructor
  · rintro ⟨j, hj, hcond⟩
    rw [List.mem_range] at hj
    rw [Bool.and_eq_true, decide_eq_true_eq] at hcond
    obtain ⟨hne, hm⟩ := hcond
    cases hg : tArr.get? j with
    | none =>
      rw [hg] at hm
      exact absurd hm Bool.false_ne_true
    | some py =>
      simp only [hg] at hm
      exact ⟨j, hj, hne, py, hg, hm⟩
  · rintro ⟨j, hj, hne, py, hg, hp⟩
    refine ⟨j, List.mem_range.mpr hj, ?_⟩
    rw [Bool.and_eq_true, decide_eq_true_eq]
    exact ⟨hne, by simp only [hg]; exact hp⟩

end IdiomGame

theorem strToList_length (s : String) : s.toList.length = s.length := rfl


/-- Claim C1: for every guess/target pair of equal length, in each scoring
variant (word after case-folding, equation, idiom character — both the
utils and the game-module idiom scorers), the number of positions marked
`correct` or `present` whose guess symbol is `c` never exceeds the number
of occurrences of `c` in the target. -/
theorem claim_C1_frequency_bound (guess target : String)
    (h : guess.length = target.length) :
    (∀ c : Char,
      Scoring.hitCount (Utils.checkGuess guess target) (some c)
        ≤ Scoring.occCount (Utils.lowerChars target) c)
    ∧ (∀ c : Char,
        Scoring.hitCount (Equation.checkGuess guess target) c
          ≤ Scoring.occCount target.toList c)
    ∧ (∀ c : Char,
        Scoring.hitCount (Utils.checkIdiomGuess guess target) c
          ≤ Scoring.occCount target.toList c)
    ∧ ∀ (guessPinyin targetPinyin : String) (c : Char),
        IdiomGame.hitCount
          (IdiomGame.checkIdiomGuess guess target guessPinyin targetPinyin) c
          ≤ Scoring.occCount target.toList c := by
  refine ⟨?_, ?_, ?_, ?_⟩
  · intro c
    have hlen : (Utils.optPad (Utils.lowerChars guess)
          (Utils.lowerChars target).length).length
        = ((Utils.lowerChars target).map some).length := by
      rw [Utils.optPad_length, List.length_map]
    have hb := Scoring.hitCount_scoreCore_le _ _ hlen (some c)
    rw [Scoring.count_eq_occCount, Scoring.occCount_map_some] at hb
    unfold Utils.checkGuess
    exact hb
  · intro c
    unfold Equation.checkGuess
    by_cases hg : guess = "" ∨ target = "" ∨ guess.length ≠ target.length
    · rw [if_pos hg]
      exact Nat.zero_le _
    · rw [if_neg hg]
      have hb := Scoring.hitCount_scoreCore_le guess.toList target.toList
        (by rw [strToList_length, strToList_length, h]) c
      rw [Scoring.count_eq_occCount] at hb
      exact hb
  · intro c
    unfold Utils.checkIdiomGuess
    by_cases hg : guess = "" ∨ target = "" ∨ guess.length ≠ target.length
    · rw [if_pos hg]
      exact Nat.zero_le _
    · rw [if_neg hg]
      have hb := Scoring.hitCount_scoreCore_le guess.toList target.toList
        (by rw [strToList_length, strToList_length, h]) c
      rw [Scoring.count_eq_occCount] at hb
      exact hb
  · intro gP tP c
    unfold IdiomGame.checkIdiomGuess
    by_cases hg : guess = "" ∨ target = "" ∨ guess.length ≠ target.length
    · rw [if_pos hg]
      exact Nat.zero_le _
    · rw [if_neg hg, IdiomGame.hitCount_attachPinyin]
      have hb := Scoring.hitCount_scoreCore_le guess.toList target.toList
        (by rw [strToList_length, strToList_length, h]) c
      rw [Scoring.count_eq_occCount] at hb
      exact hb

theorem claim_C1_frequency_bound_witness :
    ("speed" : String).length = ("erase" : String).length
      ∧ Scoring.hitCount (Utils.checkGuess "speed" "erase") (some 'e')
          ≤ Scoring.occCount (Utils.lowerChars "erase") 'e' :=
  ⟨by decide, (claim_C1_frequency_bound "speed" "erase" (by decide)).1 'e'⟩

/-- Claim C2 counterexample: the claim says all three scoring variants
return the empty sequence on a length mismatch, but the word scorer of
`utils.js` has no length guard: for `"abc"` vs `"ab"` (different lengths) it
returns a non-empty result (one entry per target position). -/
theorem claim_C2_counterexample :
    ("abc" : String).length ≠ ("ab" : String).length
      ∧ Utils.checkGuess "abc" "ab" ≠ [] := by
  constructor
  · decide
  · decide

/-- Claim C2 (amended): on a length mismatch the equation scorer and both
idiom scorers return the empty sequence, but the plain word scorer performs
no length check: it always returns exactly one entry per target position
(reading `undefined` for guess positions past the end). -/
theorem claim_C2_length_mismatch (guess target : String)
    (h : guess.length ≠ target.length) :
    Equation.checkGuess guess target = []
      ∧ Utils.checkIdiomGuess guess target = []
      ∧ (∀ guessPinyin targetPinyin : String,
          IdiomGame.checkIdiomGuess guess target guessPinyin targetPinyin = [])
      ∧ (Utils.checkGuess guess target).length = target.length := by
  refine ⟨?_, ?_, ?_, ?_⟩
  · unfold Equation.checkGuess
    rw [if_pos (Or.inr (Or.inr h))]
  · unfold Utils.checkIdiomGuess
    rw [if_pos (Or.inr (Or.inr h))]
  · intro gP tP
    unfold IdiomGame.checkIdiomGuess
    rw [if_pos (Or.inr (Or.inr h))]
  · unfold Utils.checkGuess
    rw [Scoring.scoreCore_length, List.length_zip, Utils.optPad_length,
      List.length_map]
    have : (Utils.lowerChars target).length = target.length := by
      rw [Utils.lowerChars, List.length_map, strToList_length]
    omega

theorem claim_C2_length_mismatch_witness :
    ("abc" : String).length ≠ ("ab" : String).length
      ∧ Equation.checkGuess "abc" "ab" = [] :=
  ⟨by decide, (claim_C2_length_mismatch "abc" "ab" (by decide)).1⟩

/-- Claim C9: `parsePinyin("zhōng")` returns initial `zh` (the two-character
initial is matched before `z` in the table), final `ong` and tone 1, and
parsing the plain form `"zhong1"` with an explicit trailing tone digit
yields the same decomposition. -/
theorem claim_C9_parsePinyin_zhong :
    Pinyin.parsePinyin "zhōng" = ⟨"zh", "ong", 1⟩
      ∧ Pinyin.parsePinyin "zhong1" = Pinyin.parsePinyin "zhōng" := by
  constructor
  · decide
  · decide

/-- Claim C10: for equal-length guess/target pairs each scoring variant
returns exactly one entry per target position, entry `i` carries the guess
symbol of position `i` (case-folded in the word variant), and every
returned status is `correct`, `present` or `absent` — the provisional
`pending` never survives. -/
theorem claim_C10_result_shape (guess target : String)
    (h : guess.length = target.length) :
    ((Utils.checkGuess guess target).length = target.length
      ∧ (Utils.checkGuess guess target).map GCell.letter
          = (Utils.lowerChars guess).map some
      ∧ ∀ y ∈ Utils.checkGuess guess target,
          y.status = Status.correct ∨ y.status = Status.present
            ∨ y.status = Status.absent)
    ∧ ((Equation.checkGuess guess target).length = target.length
      ∧ (Equation.checkGuess guess target).map GCell.letter = guess.toList
      ∧ ∀ y ∈ Equation.checkGuess guess target,
          y.status = Status.correct ∨ y.status = Status.present
            ∨ y.status = Status.absent)
    ∧ ((Utils.checkIdiomGuess guess target).length = target.length
      ∧ (Utils.checkIdiomGuess guess target).map GCell.letter = guess.toList
      ∧ ∀ y ∈ Utils.checkIdiomGuess guess target,
          y.status = Status.correct ∨ y.status = Status.present
            ∨ y.status = Status.absent)
    ∧ ∀ guessPinyin targetPinyin : String,
        (IdiomGame.checkIdiomGuess guess target guessPinyin targetPinyin).length
            = target.length
          ∧ (IdiomGame.checkIdiomGuess guess target guessPinyin
              targetPinyin).map IdiomGame.IdiomCell.char = guess.toList
          ∧ ∀ y ∈ IdiomGame.checkIdiomGuess guess target guessPinyin targetPinyin,
              y.status = Status.correct ∨ y.status = Status.present
                ∨ y.status = Status.absent := by
  have hg : (Utils.lowerChars guess).length = guess.length := by
    rw [Utils.lowerChars, List.length_map, strToList_length]
  have ht : (Utils.lowerChars target).length = target.length := by
    rw [Utils.lowerChars, List.length_map, strToList_length]
  have htl : guess.toList.length = target.toList.length := by
    rw [strToList_length, strToList_length, h]
  refine ⟨⟨?_, ?_, ?_⟩, ⟨?_, ?_, ?_⟩, ⟨?_, ?_, ?_⟩, ?_⟩
  · unfold Utils.checkGuess
    rw [Scoring.scoreCore_length, List.length_zip, Utils.optPad_length,
      List.length_map]
    omega
  · unfold Utils.checkGuess
    rw [Scoring.scoreCore_map_letter, List.map_fst_zip]
    · have : (Utils.lowerChars target).length = (Utils.lowerChars guess).length := by
        omega
      rw [this, Utils.optPad_self]
    · rw [Utils.optPad_length, List.length_map]
  · exact fun y hy => Scoring.scoreCore_status _ _ y hy
  · unfold Equation.checkGuess
    by_cases hc : guess = "" ∨ target = "" ∨ guess.length ≠ target.length
    · rw [if_pos hc]
      rcases hc with hc | hc | hc
      · simp [hc] at h ⊢
        omega
      · simp [hc]
      · exact absurd h hc
    · rw [if_neg hc, Scoring.scoreCore_length, List.length_zip, htl,
        Nat.min_self, strToList_length]
  · unfold Equation.checkGuess
    by_cases hc : guess = "" ∨ target = "" ∨ guess.length ≠ target.length
    · rw [if_pos hc]
      rcases hc with hc | hc | hc
      · simp [hc]
      · have h1 : guess.length = 0 := by
          rw [h, hc]
          rfl
        have h2 : guess.toList.length = 0 := by
          rw [strToList_length]
          exact h1
        rw [List.length_eq_zero.mp h2]
        rfl
      · exact absurd h hc
    · rw [if_neg hc, Scoring.scoreCore_map_letter, List.map_fst_zip]
      exact le_of_eq htl
  · intro y hy
    unfold Equation.checkGuess at hy
    by_cases hc : guess = "" ∨ target = "" ∨ guess.length ≠ target.length
    · rw [if_pos hc] at hy
      simp at hy
    · rw [if_neg hc] at hy
      exact Scoring.scoreCore_status _ _ y hy
  · unfold Utils.checkIdiomGuess
    by_cases hc : guess = "" ∨ target = "" ∨ guess.length ≠ target.length
    · rw [if_pos hc]
      rcases hc with hc | hc | hc
      · simp [hc] at h ⊢
        omega
      · simp [hc]
      · exact absurd h hc
    · rw [if_neg hc, Scoring.scoreCore_length, List.length_zip, htl,
        Nat.min_self, strToList_length]
  · unfold Utils.checkIdiomGuess
    by_cases hc : guess = "" ∨ target = "" ∨ guess.length ≠ target.length
    · rw [if_pos hc]
      rcases hc with hc | hc | hc
      · simp [hc]
      · have h0 : guess.toList.length = 0 := by
          rw [strToList_length, h, hc]
          rfl
        rw [List.length_eq_zero.mp h0]
        rfl
      · exact absurd h hc
    · rw [if_neg hc, Scoring.scoreCore_map_letter, List.map_fst_zip]
      exact le_of_eq htl
  · intro y hy
    unfold Utils.checkIdiomGuess at hy
    by_cases hc : guess = "" ∨ target = "" ∨ guess.length ≠ target.length
    · rw [if_pos hc] at hy
      simp at hy
    · rw [if_neg hc] at hy
      exact Scoring.scoreCore_status _ _ y hy
  · intro gP tP
    refine ⟨?_, ?_, ?_⟩
    · unfold IdiomGame.checkIdiomGuess
      by_cases hc : guess = "" ∨ target = "" ∨ guess.length ≠ target.length
      · rw [if_pos hc]
        rcases hc with hc | hc | hc
        · simp [hc] at h ⊢
          omega
        · simp [hc]
        · exact absurd h hc
      · rw [if_neg hc, IdiomGame.attachPinyin_length, Scoring.scoreCore_length,
          List.length_zip, htl, Nat.min_self, strToList_length]
    · unfold IdiomGame.checkIdiomGuess
      by_cases hc : guess = "" ∨ target = "" ∨ guess.length ≠ target.length
      · rw [if_pos hc]
        rcases hc with hc | hc | hc
        · simp [hc]
        · have h0 : guess.toList.length = 0 := by
            rw [strToList_length, h, hc]
            rfl
          rw [List.length_eq_zero.mp h0]
          rfl
        · exact absurd h hc
      · rw [if_neg hc, IdiomGame.attachPinyin_map_char,
          Scoring.scoreCore_map_letter, List.map_fst_zip]
        exact le_of_eq htl
    · intro y hy
      unfold IdiomGame.checkIdiomGuess at hy
      by_cases hc : guess = "" ∨ target = "" ∨ guess.length ≠ target.length
      · rw [if_pos hc] at hy
        simp at hy
      · rw [if_neg hc] at hy
        have hmem : y.status ∈ (IdiomGame.attachPinyin target.length
            (Pinyin.parsePinyinString gP) (Pinyin.parsePinyinString tP) 0
            (Scoring.scoreCore guess.toList target.toList)).map
              IdiomGame.IdiomCell.status :=
          List.mem_map_of_mem _ hy
        rw [IdiomGame.attachPinyin_map_status] at hmem
        rcases List.mem_map.mp hmem with ⟨z, hz, hzs⟩
        rw [← hzs]
        exact Scoring.scoreCore_status _ _ z hz

theorem claim_C10_result_shape_witness :
    ("apple" : String).length = ("apple" : String).length
      ∧ (Utils.checkGuess "apple" "apple").length = ("apple" : String).length :=
  ⟨rfl, (claim_C10_result_shape "apple" "apple" rfl).1.1⟩

namespace IdiomGame

theorem existsOther_toneFinal_iff (len i : Nat) (tArr : List Pinyin.Syllable)
    (gp : Pinyin.Syllable) :
    existsOther len i tArr
        (fun py => py.tone == gp.tone && py.final == gp.final) = true
      ↔ ∃ j, j < len ∧ j ≠ i ∧ ∃ py, tArr.get? j = some py
          ∧ py.tone = gp.tone ∧ py.final = gp.final := by
  rw [existsOther_iff]
  apply exists_congr
  intro j
  apply and_congr_right
  intro _
  apply and_congr_right
  intro _
  apply exists_congr
  intro py
  apply and_congr_right
  intro _
  simp [Bool.and_eq_true]

theorem existsOther_tone_iff (len i : Nat) (tArr : List Pinyin.Syllable)
    (gp : Pinyin.Syllable) :
    existsOther len i tArr (fun py => py.tone == gp.tone) = true
      ↔ ∃ j, j < len ∧ j ≠ i ∧ ∃ py, tArr.get? j = some py ∧ py.tone = gp.tone := by
  rw [existsOther_iff]
  apply exists_congr
  intro j
  apply and_congr_right
  intro _
  apply and_congr_right
  intro _
  apply exists_congr
  intro py
  apply and_congr_right
  intro _
  simp

theorem checkIdiomGuess_pinyin (guess target guessPinyin targetPinyin : String)
    (hne : ¬(guess = "" ∨ target = "" ∨ guess.length ≠ target.length))
    (i : Nat)
    (hi : i < (checkIdiomGuess guess target guessPinyin targetPinyin).length) :
    ((checkIdiomGuess guess target guessPinyin targetPinyin).get ⟨i, hi⟩).pinyin
      = pinyinInfoAt target.length i (Pinyin.parsePinyinString guessPinyin)
          (Pinyin.parsePinyinString targetPinyin) := by
  have he : checkIdiomGuess guess target guessPinyin targetPinyin
      = attachPinyin target.length (Pinyin.parsePinyinString guessPinyin)
          (Pinyin.parsePinyinString targetPinyin) 0
          (Scoring.scoreCore guess.toList target.toList) := by
    unfold checkIdiomGuess
    rw [if_neg hne]
  have hi2 : i < (Scoring.scoreCore guess.toList target.toList).length := by
    have h1 := hi
    rw [he, attachPinyin_length] at h1
    exact h1
  have hlt : i < (attachPinyin target.length (Pinyin.parsePinyinString guessPinyin)
      (Pinyin.parsePinyinString targetPinyin) 0
      (Scoring.scoreCore guess.toList target.toList)).length := by
    rw [attachPinyin_length]
    exact hi2
  have hget := List.get_of_eq he ⟨i, hi⟩
  have hcell := attachPinyin_get target.length (Pinyin.parsePinyinString guessPinyin)
    (Pinyin.parsePinyinString targetPinyin) 0
    (Scoring.scoreCore guess.toList target.toList) i hlt hi2
  rw [hget, hcell]
  rw [Nat.zero_add]

/-- Claim C3: in the idiom pinyin sub-scoring, at a position `i` covered by
both parsed pinyin sequences, when the tones agree but the finals differ the
tone status is `present` exactly when some other position's target syllable
carries both that tone and the guess final (and `correct` otherwise), and
when the tones differ it is `present` exactly when the guess tone appears at
some other position's target syllable (and `absent` otherwise). -/
theorem claim_C3_tone_subscore (guess target guessPinyin targetPinyin : String)
    (hg : guess ≠ "") (ht : target ≠ "") (hlen : guess.length = target.length)
    (i : Nat)
    (hi : i < (IdiomGame.checkIdiomGuess guess target guessPinyin targetPinyin).length)
    (gp tp : Pinyin.Syllable)
    (hgp : (Pinyin.parsePinyinString guessPinyin).get? i = some gp)
    (htp : (Pinyin.parsePinyinString targetPinyin).get? i = some tp) :
    ∃ info : IdiomGame.PinyinInfo,
      ((IdiomGame.checkIdiomGuess guess target guessPinyin targetPinyin).get
          ⟨i, hi⟩).pinyin = some info
      ∧ (gp.tone = tp.tone → gp.final ≠ tp.final →
          ((∃ j, j < target.length ∧ j ≠ i ∧ ∃ py,
              (Pinyin.parsePinyinString targetPinyin).get? j = some py
                ∧ py.tone = gp.tone ∧ py.final = gp.final) →
              info.tone = Status.present)
          ∧ (¬(∃ j, j < target.length ∧ j ≠ i ∧ ∃ py,
              (Pinyin.parsePinyinString targetPinyin).get? j = some py
                ∧ py.tone = gp.tone ∧ py.final = gp.final) →
              info.tone = Status.correct))
      ∧ (gp.tone ≠ tp.tone →
          ((∃ j, j < target.length ∧ j ≠ i ∧ ∃ py,
              (Pinyin.parsePinyinString targetPinyin).get? j = some py
                ∧ py.tone = gp.tone) →
              info.tone = Status.present)
          ∧ (¬(∃ j, j < target.length ∧ j ≠ i ∧ ∃ py,
              (Pinyin.parsePinyinString targetPinyin).get? j = some py
                ∧ py.tone = gp.tone) →
              info.tone = Status.absent)) := by
  have hne : ¬(guess = "" ∨ target = "" ∨ guess.length ≠ target.length) := by
    push_neg
    exact ⟨hg, ht, hlen⟩
  have hpy := checkIdiomGuess_pinyin guess target guessPinyin targetPinyin hne i hi
  refine ⟨⟨initialStatus target.length i gp tp (Pinyin.parsePinyinString targetPinyin),
      finalStatus target.length i gp tp (Pinyin.parsePinyinString targetPinyin),
      toneStatus target.length i gp tp (Pinyin.parsePinyinString targetPinyin)⟩,
      ?_, ?_, ?_⟩
  · rw [hpy]
    simp only [pinyinInfoAt, hgp, htp]
  · intro h1 h2
    constructor
    · intro hex
      show toneStatus target.length i gp tp (Pinyin.parsePinyinString targetPinyin)
        = Status.present
      unfold toneStatus
      rw [if_pos h1, if_neg h2,
        if_pos ((existsOther_toneFinal_iff target.length i
          (Pinyin.parsePinyinString targetPinyin) gp).mpr hex)]
    · intro hnex
      show toneStatus target.length i gp tp (Pinyin.parsePinyinString targetPinyin)
        = Status.correct
      unfold toneStatus
      rw [if_pos h1, if_neg h2,
        if_neg (fun hcontra => hnex ((existsOther_toneFinal_iff target.length i
          (Pinyin.parsePinyinString targetPinyin) gp).mp hcontra))]
  · intro h1
    constructor
    · intro hex
      show toneStatus target.length i gp tp (Pinyin.parsePinyinString targetPinyin)
        = Status.present
      unfold toneStatus
      rw [if_neg h1,
        if_pos ((existsOther_tone_iff target.length i
          (Pinyin.parsePinyinString targetPinyin) gp).mpr hex)]
    · intro hnex
      show toneStatus target.length i gp tp (Pinyin.parsePinyinString targetPinyin)
        = Status.absent
      unfold toneStatus
      rw [if_neg h1,
        if_neg (fun hcontra => hnex ((existsOther_tone_iff target.length i
          (Pinyin.parsePinyinString targetPinyin) gp).mp hcontra))]

end IdiomGame

namespace Assoc

/-- JavaScript-object lookup `obj[id]` on an association list in key
insertion order. -/
def lookupS {β : Type} : List (String × β) → String → Option β
  | [], _ => none
  | (k, v) :: rest, id => if k = id then some v else lookupS rest id

/-- JavaScript-object assignment `obj[id] = v`: update in place when the key
exists, else append (insertion order). -/
def setS {β : Type} : List (String × β) → String → β → List (String × β)
  | [], id, v => [(id, v)]
  | (k, w) :: rest, id, v =>
    if k = id then (id, v) :: rest else (k, w) :: setS rest id v

theorem lookupS_setS_self {β : Type} (l : List (String × β)) (id : String) (v : β) :
    lookupS (setS l id v) id = some v := by
  induction l with
  | nil => simp [setS, lookupS]
  | cons p rest ih =>
    obtain ⟨k, w⟩ := p
    by_cases h : k = id
    · simp [setS, h, lookupS]
    · simp [setS, h, lookupS, ih]

theorem lookupS_setS_ne {β : Type} (l : List (String × β)) (id id' : String) (v : β)
    (h : id ≠ id') :
    lookupS (setS l id v) id' = lookupS l id' := by
  induction l with
  | nil => simp [setS, lookupS, h]
  | cons p rest ih =>
    obtain ⟨k, w⟩ := p
    by_cases hp : k = id
    · subst hp
      simp [setS, lookupS, h, ih]
    · simp [setS, hp, lookupS, ih]

end Assoc

namespace DB

/-- `db.js` line 7: the fixed key namespace for game records (named
`GAME_KEY_PREFIX` in the source). -/
def gameKeyBase : String := "wordle:game:"

/-- The external durable key-value collaborator (Redis), modelled as a map
from key strings to stored serialized values. -/
def KV (α : Type) : Type := String → Option α

/-- The JavaScript string coercion performed by
`this.GAME_KEY_PREFIX + groupId`: in a private chat the game modules pass
`groupId = null`, which concatenates as the three-letter string `"null"`. -/
def jsIdString : Option String → String
  | some g => g
  | none => "null"

/-- `db.js` lines 26-44, `getGameData(groupId)`: the function declares a
single `groupId` parameter and reads `'wordle:game:' + groupId`. -/
def getGameData {α : Type} (kv : KV α) (groupId : Option String) : Option α :=
  kv (gameKeyBase ++ jsIdString groupId)

/-- `db.js` lines 52-64, `saveGameData(groupId, gameData)`: store the value
under `'wordle:game:' + groupId` (the 24h TTL is not tracked here). -/
def saveGameData {α : Type} (kv : KV α) (groupId : Option String) (gameData : α) :
    KV α :=
  fun k => if k = gameKeyBase ++ jsIdString groupId then some gameData else kv k

/-- `db.js` lines 71-81, `deleteGameData(groupId)`: remove the value stored
under `'wordle:game:' + groupId`. -/
def deleteGameData {α : Type} (kv : KV α) (groupId : Option String) : KV α :=
  fun k => if k = gameKeyBase ++ jsIdString groupId then none else kv k

/-- The call the game modules actually make, e.g.
`this.utils.db.getGameData(finalGroupId, finalUserId)` (`word.js` line 278,
the idiom module line 362, the math module line 296): JavaScript silently
drops the extra `userId` argument because `db.js`'s `getGameData` declares
only `groupId`.  In a private chat `finalGroupId` is `null`. -/
def getGameDataCall {α : Type} (kv : KV α) (groupId _userId : Option String) :
    Option α :=
  getGameData kv groupId

/-- `this.utils.db.saveGameData(finalGroupId, currentGame, finalUserId)`
(`word.js` line 307, the idiom module line 401): the third `userId` argument
is dropped by `db.js`'s two-parameter `saveGameData`. -/
def saveGameDataCall {α : Type} (kv : KV α) (groupId : Option String)
    (gameData : α) (_userId : Option String) : KV α :=
  saveGameData kv groupId gameData

/-- `this.utils.db.deleteGameData(groupId, userId)` (`base.js` line 94,
`word.js` line 362): the `userId` argument is dropped by `db.js`'s
one-parameter `deleteGameData`. -/
def deleteGameDataCall {α : Type} (kv : KV α) (groupId _userId : Option String) :
    KV α :=
  deleteGameData kv groupId

end DB

namespace GameBase

/-- The result of `_getGameContext` (`base.js` lines 44-49). -/
structure GameContext where
  groupId : Option String
  userId : Option String
  gameKey : Option String
deriving DecidableEq, Repr

/-- `base.js` lines 44-49, `_getGameContext`: the game scope key is the
group id when present, otherwise the synthetic `private_<userId>` id. -/
def _getGameContext (groupId userId : Option String) : GameContext :=
  { groupId := groupId
    userId := userId
    gameKey :=
      match groupId with
      | some g => some g
      | none => userId.map (fun u => "private_" ++ u) }

end GameBase

/-- Claim C4 (code bug): `_getGameContext` does give two distinct private
users distinct synthetic `private_<userId>` scopes, but those scopes never
reach the store.  The game modules call `getGameData`/`saveGameData`/
`deleteGameData` with the raw `groupId` — `null` in a private chat — and
`db.js` silently drops the `userId` argument they also pass, so every
private user's session lives under the single key `"wordle:game:null"`:
reading one private user's session returns what another private user's flow
just saved, a save for one private user overwrites the other's session,
and a delete for one destroys the other's — contradicting the claimed
isolation of distinct private-user scopes. -/
theorem claim_C4_private_scope_collision :
    (GameBase._getGameContext none (some "42")).gameKey
        ≠ (GameBase._getGameContext none (some "77")).gameKey
    ∧ (∀ (kv : DB.KV Nat) (v : Nat),
        DB.getGameDataCall (DB.saveGameDataCall kv none v (some "42"))
          none (some "77") = some v)
    ∧ (∀ (kv : DB.KV Nat) (v w : Nat),
        DB.getGameDataCall
          (DB.saveGameDataCall (DB.saveGameDataCall kv none v (some "42"))
            none w (some "77"))
          none (some "42") = some w)
    ∧ ∀ (kv : DB.KV Nat) (v : Nat),
        DB.getGameDataCall
          (DB.deleteGameDataCall (DB.saveGameDataCall kv none v (some "42"))
            none (some "77"))
          none (some "42") = none := by
  refine ⟨by decide, ?_, ?_, ?_⟩
  · intro kv v
    unfold DB.getGameDataCall DB.saveGameDataCall DB.getGameData DB.saveGameData
    rw [if_pos rfl]
  · intro kv v w
    unfold DB.getGameDataCall DB.saveGameDataCall DB.getGameData DB.saveGameData
    rw [if_pos rfl]
  · intro kv v
    unfold DB.getGameDataCall DB.deleteGameDataCall DB.saveGameDataCall
      DB.getGameData DB.deleteGameData DB.saveGameData
    rw [if_pos rfl]

/-- `String.prototype.trim` on a whole string. -/
def jsTrimStr (s : String) : String := String.mk (Pinyin.jsTrim s.toList)

namespace WordGame

/-- The word game session record created by `startNewGame`
(`word.js` lines 224-233). -/
structure WordSession where
  targetWord : String
  guesses : List String
  attempts : Nat
  maxAttempts : Nat
  finished : Bool
  startTime : Nat
  letterCount : Nat
  participants : List (String × String)
deriving DecidableEq, Repr

/-- `word.js` lines 273-333, `processGuess`, as its effect on the stored
session.  `current` is what `getGameData` returned for the scope; `isValid`
is the corpus collaborator's answer (`word.isValidWord`).  When there is no
active game, or the guess fails validation, the stored session is left as
is (the function only replies); otherwise the participant is upserted, the
guess appended, the attempt counted and the win/loss state computed, and
the updated record saved. -/
def processGuess (current : Option WordSession) (isValid : Bool) (guess : String)
    (userId : Option String) (nickname : String) : Option WordSession :=
  match current with
  | none => none
  | some game =>
    if game.finished then some game
    else if !isValid then some game
    else
      let ps := match userId with
        | some uid => Assoc.setS game.participants uid nickname
        | none => game.participants
      let attempts1 := game.attempts + 1
      let isWin := jsTrimStr guess == jsTrimStr game.targetWord
      some { game with
        participants := ps
        guesses := game.guesses ++ [guess]
        attempts := attempts1
        finished := isWin || decide (game.maxAttempts ≤ attempts1) }

end WordGame

namespace IdiomGame

/-- The idiom game session record created by `startNewIdiomGame`
(idiom game module lines 289-301). -/
structure IdiomSession where
  targetWord : String
  targetPinyin : String
  guesses : List String
  guessesPinyin : List String
  attempts : Nat
  maxAttempts : Nat
  finished : Bool
  startTime : Nat
  letterCount : Nat
  participants : List (String × String)
deriving DecidableEq, Repr

/-- Idiom game module lines 357-433, `processGuess`, as its effect on the
stored session.  `isValid` is the corpus collaborator's answer
(`idiom.isValidIdiom`), `guessPinyin` the collaborator's pinyin lookup for
the guess (`null` becomes `''` when pushed). -/
def processGuess (current : Option IdiomSession) (isValid : Bool) (guess : String)
    (userId : Option String) (nickname : String) (guessPinyin : Option String) :
    Option IdiomSession :=
  match current with
  | none => none
  | some game =>
    if game.finished then some game
    else if !isValid then some game
    else
      let ps := match userId with
        | some uid => Assoc.setS game.participants uid nickname
        | none => game.participants
      let attempts1 := game.attempts + 1
      let isWin := jsTrimStr guess == jsTrimStr game.targetWord
      some { game with
        participants := ps
        guesses := game.guesses ++ [guess]
        guessesPinyin := game.guessesPinyin ++ [guessPinyin.getD ""]
        attempts := attempts1
        finished := isWin || decide (game.maxAttempts ≤ attempts1) }

end IdiomGame

/-- Claim C8: for an active session, a guess that fails the corpus validity
check leaves the stored session completely unchanged, in both the word game
and the idiom game: nothing is appended, no attempt is counted, no
participant is added, the session is not finished. -/
theorem claim_C8_invalid_guess_no_mutation
    (wgame : WordGame.WordSession) (igame : IdiomGame.IdiomSession)
    (guess : String) (userId : Option String) (nickname : String)
    (guessPinyin : Option String)
    (hw : wgame.finished = false) (hi : igame.finished = false) :
    WordGame.processGuess (some wgame) false guess userId nickname = some wgame
      ∧ IdiomGame.processGuess (some igame) false guess userId nickname guessPinyin
          = some igame := by
  constructor
  · simp [WordGame.processGuess, hw]
  · simp [IdiomGame.processGuess, hi]

theorem claim_C8_invalid_guess_no_mutation_witness :
    (⟨"apple", [], 0, 8, false, 0, 5, []⟩ : WordGame.WordSession).finished = false
      ∧ WordGame.processGuess (some ⟨"apple", [], 0, 8, false, 0, 5, []⟩) false
          "zzzzz" (some "42") "player" = some ⟨"apple", [], 0, 8, false, 0, 5, []⟩ :=
  ⟨rfl, (claim_C8_invalid_guess_no_mutation ⟨"apple", [], 0, 8, false, 0, 5, []⟩
    ⟨"一帆风顺", "", [], [], 0, 10, false, 0, 4, []⟩ "zzzzz" (some "42") "player"
    none rfl rfl).1⟩

theorem claim_C3_tone_subscore_witness :
    ∃ info : IdiomGame.PinyinInfo,
      ((IdiomGame.checkIdiomGuess "abcd" "wxyz" "ma1 bo2 ce3 de4"
          "ti1 la1 bo2 ce3").get ⟨0, by decide⟩).pinyin = some info
        ∧ info.tone = Status.present := by
  obtain ⟨info, hpy, htone, _⟩ := IdiomGame.claim_C3_tone_subscore "abcd" "wxyz"
    "ma1 bo2 ce3 de4" "ti1 la1 bo2 ce3" (by decide) (by decide) (by decide)
    0 (by decide) ⟨"m", "a", 1⟩ ⟨"t", "i", 1⟩ (by decide) (by decide)
  refine ⟨info, hpy, ?_⟩
  exact (htone (by decide) (by decide)).1
    ⟨1, by decide, by decide, ⟨"l", "a", 1⟩, by decide, by decide, by decide⟩

namespace Leaderboard

/-- One stored leaderboard record `{nickname, wins, gamesPlayed}`
(`leaderboard.js`). -/
structure StoredStats where
  nickname : String
  wins : Nat
  gamesPlayed : Nat
deriving DecidableEq, Repr

/-- A per-scope leaderboard table: the JSON object mapping player id to
stats, in key insertion order. -/
abbrev Table := List (String × StoredStats)

/-- One participant entry passed to `recordGameResult` (entries without a
player id are skipped by the source before any effect, so the model takes
the remaining well-formed ones). -/
structure Participant where
  userId : String
  nickname : Option String
deriving DecidableEq, Repr

/-- `leaderboard.js` lines 299-304, `_normalizeNickname`: a non-blank
nickname is trimmed, anything else falls back to `玩家<id>`. -/
def normalizeNickname (nickname : Option String) (fallback : String) : String :=
  match nickname with
  | some s => if jsTrimStr s ≠ "" then jsTrimStr s else "玩家" ++ fallback
  | none => "玩家" ++ fallback

/-- `_calculateWinRate` (lines 196-199): `wins / games * 100` rounded
half-up to two decimals (`toFixed(2)`), `0` when no games.  The value is
represented exactly, scaled to hundredths of a percentage point
(`⌊wins/games*10000 + 1/2⌋` in integer arithmetic), which preserves every
equality and order comparison the `rate` sort performs. -/
def calculateWinRate (wins games : Nat) : Nat :=
  if games = 0 then 0
  else (20000 * wins + games) / (2 * games)

/-- One row of a ranking as produced by `getLeaderboard` /
`getGlobalLeaderboard`. -/
structure PlayerView where
  userId : String
  nickname : String
  wins : Nat
  gamesPlayed : Nat
  winRate : Nat
deriving DecidableEq, Repr

/-- The `Object.entries(...).map(...)` step of both ranking functions
(lines 124-134 and 250-260). -/
def toPlayers (lb : Table) : List PlayerView :=
  lb.map fun p =>
    ⟨p.1, p.2.nickname, p.2.wins, p.2.gamesPlayed,
      calculateWinRate p.2.wins p.2.gamesPlayed⟩

/-- `a.userId.localeCompare(b.userId, 'zh-Hans-CN')`, modelled for the
digit-string player ids as the sign of the lexicographic string compare. -/
def localeCompare (a b : String) : Int :=
  if a < b then -1 else if b < a then 1 else 0

/-- The `wins` comparator (lines 156-160 / 282-286). -/
def cmpWins (a b : PlayerView) : Int :=
  if b.wins ≠ a.wins then (b.wins : Int) - (a.wins : Int)
  else if b.gamesPlayed ≠ a.gamesPlayed then
    (b.gamesPlayed : Int) - (a.gamesPlayed : Int)
  else localeCompare a.userId b.userId

/-- The `games` comparator (lines 139-143 / 265-269): games played
descending, then wins descending, then player id ascending. -/
def cmpGames (a b : PlayerView) : Int :=
  if b.gamesPlayed ≠ a.gamesPlayed then
    (b.gamesPlayed : Int) - (a.gamesPlayed : Int)
  else if b.wins ≠ a.wins then (b.wins : Int) - (a.wins : Int)
  else localeCompare a.userId b.userId

/-- The `rate` comparator (lines 148-152 / 274-278); only the sign of the
float difference `b.winRate - a.winRate` matters to the sort. -/
def cmpRate (a b : PlayerView) : Int :=
  if b.winRate ≠ a.winRate then (if a.winRate < b.winRate then 1 else -1)
  else if b.gamesPlayed ≠ a.gamesPlayed then
    (b.gamesPlayed : Int) - (a.gamesPlayed : Int)
  else localeCompare a.userId b.userId

/-- One step of the stable comparator sort: insert `x` behind every element
it does not strictly precede, as `Array.prototype.sort` (stable since
ES2019) orders tied elements. -/
def insertStable {α : Type} (cmp : α → α → Int) (x : α) : List α → List α
  | [] => [x]
  | y :: ys => if cmp y x ≤ 0 then y :: insertStable cmp x ys else x :: y :: ys

/-- `players.sort(cmp)` as a stable insertion sort. -/
def sortJS {α : Type} (cmp : α → α → Int) (l : List α) : List α :=
  l.foldl (fun acc x => insertStable cmp x acc) []

/-- The shared sort/filter/slice pipeline of `getLeaderboard` (lines
136-165) and `getGlobalLeaderboard` (lines 262-291): switch on the sort
key (`wins` is the default), filter `gamesPlayed >= 3` for `rate`, sort,
then `slice(0, limit)`. -/
def rankPlayers (lb : Table) (sortBy : String) (limit : Nat) : List PlayerView :=
  let players := toPlayers lb
  let sorted :=
    if sortBy = "games" then sortJS cmpGames players
    else if sortBy = "rate" then
      sortJS cmpRate (players.filter fun p => 3 ≤ p.gamesPlayed)
    else sortJS cmpWins players
  sorted.take limit

/-- `leaderboard.js` lines 122-165, `getLeaderboard`. -/
def getLeaderboard (lb : Table) (sortBy : String) (limit : Nat) : List PlayerView :=
  rankPlayers lb sortBy limit

/-- The per-entry accumulation of `getGlobalLeaderboard` (lines 233-247):
create the entry on first sight, add the wins and games, and let a truthy
(non-empty) nickname win. -/
def mergeEntry (acc : Table) (id : String) (d : StoredStats) : Table :=
  let st0 := match Assoc.lookupS acc id with
    | some st => st
    | none => (⟨d.nickname, 0, 0⟩ : StoredStats)
  let st1 := { st0 with
    wins := st0.wins + d.wins
    gamesPlayed := st0.gamesPlayed + d.gamesPlayed }
  let st2 := if d.nickname ≠ "" then { st1 with nickname := d.nickname } else st1
  Assoc.setS acc id st2

/-- The cross-scope merge of `getGlobalLeaderboard` (lines 229-248), over
the tables of every known scope in discovery order. -/
def mergeTables (tables : List Table) : Table :=
  tables.foldl (fun acc tb => tb.foldl (fun a p => mergeEntry a p.1 p.2) acc) []

/-- `leaderboard.js` lines 227-291, `getGlobalLeaderboard`: merge all scope
tables, then apply the same sort/filter/slice pipeline. -/
def getGlobalLeaderboard (tables : List Table) (sortBy : String) (limit : Nat) :
    List PlayerView :=
  rankPlayers (mergeTables tables) sortBy limit

theorem mem_insertStable {α : Type} (cmp : α → α → Int) (x : α) (l : List α) (y : α)
    (h : y ∈ insertStable cmp x l) : y = x ∨ y ∈ l := by
  induction l with
  | nil => simpa [insertStable] using h
  | cons z zs ih =>
    by_cases hc : cmp z x ≤ 0
    · rw [insertStable, if_pos hc] at h
      rcases List.mem_cons.mp h with rfl | h2
      · exact Or.inr (List.mem_cons_self _ _)
      · rcases ih h2 with h3 | h3
        · exact Or.inl h3
        · exact Or.inr (List.mem_cons_of_mem _ h3)
    · rw [insertStable, if_neg hc] at h
      rcases List.mem_cons.mp h with rfl | h2
      · exact Or.inl rfl
      · exact Or.inr h2

theorem mem_sortJS_aux {α : Type} (cmp : α → α → Int) :
    ∀ (l acc : List α) (y : α),
      y ∈ l.foldl (fun acc x => insertStable cmp x acc) acc → y ∈ l ∨ y ∈ acc := by
  intro l
  induction l with
  | nil => exact fun acc y h => Or.inr h
  | cons x xs ih =>
    intro acc y h
    rw [List.foldl_cons] at h
    rcases ih (insertStable cmp x acc) y h with h2 | h2
    · exact Or.inl (List.mem_cons_of_mem _ h2)
    · rcases mem_insertStable cmp x acc y h2 with rfl | h3
      · exact Or.inl (List.mem_cons_self _ _)
      · exact Or.inr h3

theorem mem_sortJS {α : Type} (cmp : α → α → Int) (l : List α) (y : α)
    (h : y ∈ sortJS cmp l) : y ∈ l := by
  rcases mem_sortJS_aux cmp l [] y h with h2 | h2
  · exact h2
  · simp at h2

/-- Claim C7: an entry with fewer than 3 games never appears in a
`rate`-sorted ranking, for the per-scope and for the merged global
leaderboard. -/
theorem claim_C7_rate_floor (lb : Table) (tables : List Table) (limit : Nat)
    (p : PlayerView) :
    (p ∈ getLeaderboard lb "rate" limit → 3 ≤ p.gamesPlayed)
      ∧ (p ∈ getGlobalLeaderboard tables "rate" limit → 3 ≤ p.gamesPlayed) := by
  constructor
  · intro hmem
    have hmem2 : p ∈ (sortJS cmpRate
        ((toPlayers lb).filter fun q => 3 ≤ q.gamesPlayed)).take limit := hmem
    have h1 := List.take_subset limit _ hmem2
    have h2 := mem_sortJS cmpRate _ p h1
    have h3 := List.mem_filter.mp h2
    exact of_decide_eq_true h3.2
  · intro hmem
    have hmem2 : p ∈ (sortJS cmpRate
        ((toPlayers (mergeTables tables)).filter
          fun q => 3 ≤ q.gamesPlayed)).take limit := hmem
    have h1 := List.take_subset limit _ hmem2
    have h2 := mem_sortJS cmpRate _ p h1
    have h3 := List.mem_filter.mp h2
    exact of_decide_eq_true h3.2

theorem claim_C7_rate_floor_witness :
    (⟨"a", "A", 2, 4, 5000⟩ : PlayerView)
        ∈ getLeaderboard [("a", ⟨"A", 2, 4⟩)] "rate" 10
      ∧ 3 ≤ (⟨"a", "A", 2, 4, 5000⟩ : PlayerView).gamesPlayed :=
  ⟨by decide, (claim_C7_rate_floor [("a", ⟨"A", 2, 4⟩)] [] 10
    ⟨"a", "A", 2, 4, 5000⟩).1 (by decide)⟩

end Leaderboard

namespace Leaderboard

/-- The "may come before" relation induced by a JavaScript sort
comparator. -/
def cmpLE {α : Type} (cmp : α → α → Int) (a b : α) : Prop := cmp a b ≤ 0

theorem localeCompare_total (a b : String) :
    localeCompare a b ≤ 0 ∨ localeCompare b a ≤ 0 := by
  unfold localeCompare
  by_cases h1 : a < b
  · left
    rw [if_pos h1]
    omega
  · by_cases h2 : b < a
    · right
      rw [if_pos h2]
      omega
    · left
      rw [if_neg h1, if_neg h2]

theorem cmpGames_total (a b : PlayerView) :
    cmpGames a b ≤ 0 ∨ cmpGames b a ≤ 0 := by
  unfold cmpGames
  split_ifs <;>
    first
      | omega
      | exact localeCompare_total a.userId b.userId

theorem head_insertStable {α : Type} (cmp : α → α → Int) (x : α) (l : List α) :
    (insertStable cmp x l).head? = some x
      ∨ (insertStable cmp x l).head? = l.head? := by
  cases l with
  | nil => left; rfl
  | cons y ys =>
    by_cases h : cmp y x ≤ 0
    · right
      rw [insertStable, if_pos h]
      rfl
    · left
      rw [insertStable, if_neg h]
      rfl

theorem chain_insertStable {α : Type} (cmp : α → α → Int)
    (tot : ∀ a b : α, cmp a b ≤ 0 ∨ cmp b a ≤ 0)
    (x : α) (l : List α) (h : List.Chain' (cmpLE cmp) l) :
    List.Chain' (cmpLE cmp) (insertStable cmp x l) := by
  induction l with
  | nil => simp [insertStable, List.chain'_singleton]
  | cons y ys ih =>
    by_cases hc : cmp y x ≤ 0
    · rw [insertStable, if_pos hc]
      rcases List.chain'_cons'.mp h with ⟨hhead, htail⟩
      apply List.chain'_cons'.mpr
      refine ⟨?_, ih htail⟩
      intro z hz
      rcases head_insertStable cmp x ys with h1 | h1
      · rw [h1] at hz
        have hz2 : z = x := by
          have := hz
          simp only [Option.mem_def, Option.some.injEq] at this
          exact this.symm
        subst hz2
        exact hc
      · rw [h1] at hz
        exact hhead z hz
    · rw [insertStable, if_neg hc]
      apply List.chain'_cons'.mpr
      refine ⟨?_, h⟩
      intro z hz
      have hz2 : z = y := by
        have := hz
        simp only [List.head?_cons, Option.mem_def, Option.some.injEq] at this
        exact this.symm
      subst hz2
      rcases tot x z with h2 | h2
      · exact h2
      · exact absurd h2 hc

theorem chain_sortJS_aux {α : Type} (cmp : α → α → Int)
    (tot : ∀ a b : α, cmp a b ≤ 0 ∨ cmp b a ≤ 0) :
    ∀ (l acc : List α), List.Chain' (cmpLE cmp) acc →
      List.Chain' (cmpLE cmp) (l.foldl (fun acc x => insertStable cmp x acc) acc) := by
  intro l
  induction l with
  | nil => exact fun acc h => h
  | cons x xs ih =>
    intro acc h
    rw [List.foldl_cons]
    exact ih (insertStable cmp x acc) (chain_insertStable cmp tot x acc h)

theorem chain_sortJS {α : Type} (cmp : α → α → Int)
    (tot : ∀ a b : α, cmp a b ≤ 0 ∨ cmp b a ≤ 0) (l : List α) :
    List.Chain' (cmpLE cmp) (sortJS cmp l) :=
  chain_sortJS_aux cmp tot l [] List.chain'_nil

/-- The order actually implemented by the `games` comparator: gamesPlayed
descending, then wins descending, then player id ascending. -/
def gamesOrdered (a b : PlayerView) : Prop :=
  b.gamesPlayed < a.gamesPlayed
    ∨ (a.gamesPlayed = b.gamesPlayed
        ∧ (b.wins < a.wins
            ∨ (a.wins = b.wins ∧ localeCompare a.userId b.userId ≤ 0)))

theorem cmpGames_le_iff (a b : PlayerView) :
    cmpGames a b ≤ 0 ↔ gamesOrdered a b := by
  unfold cmpGames gamesOrdered
  split_ifs with h1 h2
  · constructor
    · intro h3
      left
      omega
    · intro h3
      rcases h3 with h3 | ⟨h4, _⟩
      · omega
      · omega
  · constructor
    · intro h3
      right
      exact ⟨by omega, Or.inl (by omega)⟩
    · intro h3
      rcases h3 with h3 | ⟨h4, h5 | ⟨h6, _⟩⟩
      · omega
      · omega
      · omega
  · constructor
    · intro h3
      right
      exact ⟨by omega, Or.inr ⟨by omega, h3⟩⟩
    · intro h3
      rcases h3 with h3 | ⟨h4, h5 | ⟨h6, h7⟩⟩
      · omega
      · omega
      · exact h7

/-- Claim C5 counterexample: two players with equal `gamesPlayed` (5) and
different `wins` — the `games` ranking lists player `"2"` (5 wins) before
player `"1"` (0 wins), although `"1" < "2"`, so equal-games entries are not
ordered by ascending player id regardless of wins. -/
theorem claim_C5_counterexample :
    (getLeaderboard [("1", ⟨"A", 0, 5⟩), ("2", ⟨"B", 5, 5⟩)] "games" 10).map
        PlayerView.userId = ["2", "1"]
      ∧ (getLeaderboard [("1", ⟨"A", 0, 5⟩), ("2", ⟨"B", 5, 5⟩)] "games" 10).map
          PlayerView.gamesPlayed = [5, 5]
      ∧ ("1" : String) < "2" := by
  refine ⟨by decide, by decide, ?_⟩
  rw [String.lt_iff_toList_lt]
  decide

/-- Claim C5 (amended): under the `games` sort key the ranking — per-scope
and global — is ordered by gamesPlayed descending, tie-broken first by wins
descending and only then by ascending player id; entries with equal
gamesPlayed but different wins are ordered by their wins, not by id. -/
theorem claim_C5_games_sort_order (lb : Table) (tables : List Table) (limit : Nat) :
    List.Chain' gamesOrdered (getLeaderboard lb "games" limit)
      ∧ List.Chain' gamesOrdered (getGlobalLeaderboard tables "games" limit) := by
  constructor
  · have h1 : getLeaderboard lb "games" limit
        = (sortJS cmpGames (toPlayers lb)).take limit := rfl
    rw [h1]
    exact List.Chain'.take
      (List.Chain'.imp (fun a b hab => (cmpGames_le_iff a b).mp hab)
        (chain_sortJS cmpGames cmpGames_total (toPlayers lb))) limit
  · have h1 : getGlobalLeaderboard tables "games" limit
        = (sortJS cmpGames (toPlayers (mergeTables tables))).take limit := rfl
    rw [h1]
    exact List.Chain'.take
      (List.Chain'.imp (fun a b hab => (cmpGames_le_iff a b).mp hab)
        (chain_sortJS cmpGames cmpGames_total (toPlayers (mergeTables tables)))) limit

end Leaderboard

namespace Leaderboard

/-- The wins counter of a player (`0` when the player has no entry,
mirroring `(leaderboard[id].wins || 0)`). -/
def winsOf (lb : Table) (id : String) : Nat :=
  ((Assoc.lookupS lb id).map StoredStats.wins).getD 0

/-- The games counter of a player (`0` when the player has no entry). -/
def gamesOf (lb : Table) (id : String) : Nat :=
  ((Assoc.lookupS lb id).map StoredStats.gamesPlayed).getD 0

/-- The stored nickname of a player, when an entry exists. -/
def nickOf (lb : Table) (id : String) : Option String :=
  (Assoc.lookupS lb id).map StoredStats.nickname

/-- The nickname of the first participant entry carrying `id` (the
occurrence the de-duplication keeps). -/
def firstNick (ps : List Participant) (id : String) : Option String :=
  match ps.find? (fun p => p.userId == id) with
  | some p => p.nickname
  | none => none

/-- The per-participant effect of `recordGameResult` (lines 87-93): create
the entry if needed, overwrite the nickname, increment `gamesPlayed`, keep
`wins`. -/
def touchParticipant (lb : Table) (id nick : String) : Table :=
  Assoc.setS lb id
    { nickname := nick
      wins := winsOf lb id
      gamesPlayed := gamesOf lb id + 1 }

/-- The participant loop of `recordGameResult` (lines 79-94): walk the
participant list, skip ids already counted this call, and touch each new
id once; returns the updated table and the set of counted ids. -/
def recordParticipants : List Participant → List String → Table → Table × List String
  | [], seen, lb => (lb, seen)
  | p :: ps, seen, lb =>
    if p.userId ∈ seen then recordParticipants ps seen lb
    else
      recordParticipants ps (p.userId :: seen)
        (touchParticipant lb p.userId (normalizeNickname p.nickname p.userId))

/-- The winner nickname resolution `_normalizeNickname(winnerName ||
leaderboard[id]?.nickname, id)` (line 98). -/
def winnerNick (lb : Table) (wid : String) (winnerName : String) : String :=
  normalizeNickname
    (if winnerName ≠ "" then some winnerName else nickOf lb wid) wid

/-- The winner record after the winner branch (lines 96-110): nickname
resolved, `wins` incremented, and `gamesPlayed` incremented exactly when the
winner was not counted as a participant this call. -/
def winnerStats (lb : Table) (seen : List String) (wid : String)
    (winnerName : String) : StoredStats :=
  { nickname := winnerNick lb wid winnerName
    wins := winsOf lb wid + 1
    gamesPlayed := gamesOf lb wid + (if wid ∈ seen then 0 else 1) }

/-- The winner branch of `recordGameResult` (lines 96-110). -/
def applyWinner (lb : Table) (seen : List String) (winnerId : Option String)
    (winnerName : String) : Table :=
  match winnerId with
  | none => lb
  | some wid => Assoc.setS lb wid (winnerStats lb seen wid winnerName)

/-- `leaderboard.js` lines 77-113, `recordGameResult`: participant loop,
then winner branch, on the scope's table. -/
def recordGameResult (lb : Table) (participants : List Participant)
    (winnerId : Option String) (winnerName : String) : Table :=
  applyWinner (recordParticipants participants [] lb).1
    (recordParticipants participants [] lb).2 winnerId winnerName

theorem touch_lookup_self (lb : Table) (id nick : String) :
    Assoc.lookupS (touchParticipant lb id nick) id
      = some ⟨nick, winsOf lb id, gamesOf lb id + 1⟩ :=
  Assoc.lookupS_setS_self _ _ _

theorem touch_lookup_ne (lb : Table) (id nick id' : String) (h : id ≠ id') :
    Assoc.lookupS (touchParticipant lb id nick) id' = Assoc.lookupS lb id' :=
  Assoc.lookupS_setS_ne _ _ _ _ h

theorem rp_seen (ps : List Participant) :
    ∀ (seen : List String) (lb : Table) (id : String), id ∈ seen →
      Assoc.lookupS (recordParticipants ps seen lb).1 id = Assoc.lookupS lb id := by
  induction ps with
  | nil => intro seen lb id _; rfl
  | cons p ps ih =>
    intro seen lb id hid
    by_cases hin : p.userId ∈ seen
    · rw [recordParticipants, if_pos hin]
      exact ih seen lb id hid
    · rw [recordParticipants, if_neg hin]
      have hne : p.userId ≠ id := fun hc => hin (hc ▸ hid)
      rw [ih (p.userId :: seen) _ id (List.mem_cons_of_mem _ hid)]
      exact touch_lookup_ne lb p.userId _ id hne

theorem rp_notMem (ps : List Participant) :
    ∀ (seen : List String) (lb : Table) (id : String),
      id ∉ ps.map Participant.userId →
      Assoc.lookupS (recordParticipants ps seen lb).1 id = Assoc.lookupS lb id := by
  induction ps with
  | nil => intro seen lb id _; rfl
  | cons p ps ih =>
    intro seen lb id hid
    have hne : p.userId ≠ id := by
      intro hc
      exact hid (by rw [List.map_cons, hc]; exact List.mem_cons_self _ _)
    have htail : id ∉ ps.map Participant.userId := by
      intro hc
      exact hid (by rw [List.map_cons]; exact List.mem_cons_of_mem _ hc)
    by_cases hin : p.userId ∈ seen
    · rw [recordParticipants, if_pos hin]
      exact ih seen lb id htail
    · rw [recordParticipants, if_neg hin]
      rw [ih (p.userId :: seen) _ id htail]
      exact touch_lookup_ne lb p.userId _ id hne

theorem rp_mem (ps : List Participant) :
    ∀ (seen : List String) (lb : Table) (id : String), id ∉ seen →
      id ∈ ps.map Participant.userId →
      Assoc.lookupS (recordParticipants ps seen lb).1 id
        = some ⟨normalizeNickname (firstNick ps id) id,
            winsOf lb id, gamesOf lb id + 1⟩ := by
  induction ps with
  | nil => intro seen lb id _ hmem; simp at hmem
  | cons p ps ih =>
    intro seen lb id hseen hmem
    by_cases hpid : p.userId = id
    · have hnin : p.userId ∉ seen := by rw [hpid]; exact hseen
      rw [recordParticipants, if_neg hnin]
      have hfn : firstNick (p :: ps) id = p.nickname := by
        unfold firstNick
        rw [List.find?_cons_of_pos _ (by simp [hpid])]
      rw [rp_seen ps (p.userId :: seen) _ id (by rw [hpid]; exact List.mem_cons_self _ _)]
      rw [hpid, touch_lookup_self, hfn]
    · have htail : id ∈ ps.map Participant.userId := by
        rcases List.mem_map.mp hmem with ⟨q, hq, hqid⟩
        rcases List.mem_cons.mp hq with rfl | hq2
        · exact absurd hqid hpid
        · exact List.mem_map.mpr ⟨q, hq2, hqid⟩
      have hfn : firstNick (p :: ps) id = firstNick ps id := by
        unfold firstNick
        rw [List.find?_cons_of_neg _ (by simp [hpid])]
      by_cases hin : p.userId ∈ seen
      · rw [recordParticipants, if_pos hin, hfn]
        exact ih seen lb id hseen htail
      · rw [recordParticipants, if_neg hin, hfn]
        have hseen2 : id ∉ p.userId :: seen := by
          intro hc
          rcases List.mem_cons.mp hc with rfl | hc2
          · exact hpid rfl
          · exact hseen hc2
        rw [ih (p.userId :: seen) _ id hseen2 htail]
        have h1 : winsOf (touchParticipant lb p.userId
            (normalizeNickname p.nickname p.userId)) id = winsOf lb id := by
          unfold winsOf
          rw [touch_lookup_ne lb p.userId _ id hpid]
        have h2 : gamesOf (touchParticipant lb p.userId
            (normalizeNickname p.nickname p.userId)) id = gamesOf lb id := by
          unfold gamesOf
          rw [touch_lookup_ne lb p.userId _ id hpid]
        rw [h1, h2]

theorem rp_seen_iff (ps : List Participant) :
    ∀ (seen : List String) (lb : Table) (id : String),
      id ∈ (recordParticipants ps seen lb).2
        ↔ id ∈ seen ∨ id ∈ ps.map Participant.userId := by
  induction ps with
  | nil => intro seen lb id; simp [recordParticipants]
  | cons p ps ih =>
    intro seen lb id
    by_cases hin : p.userId ∈ seen
    · rw [recordParticipants, if_pos hin, ih]
      constructor
      · rintro (h | h)
        · exact Or.inl h
        · exact Or.inr (by rw [List.map_cons]; exact List.mem_cons_of_mem _ h)
      · rintro (h | h)
        · exact Or.inl h
        · rcases List.mem_cons.mp (by rw [List.map_cons] at h; exact h) with rfl | h2
          · exact Or.inl hin
          · exact Or.inr h2
    · rw [recordParticipants, if_neg hin, ih]
      constructor
      · rintro (h | h)
        · rcases List.mem_cons.mp h with rfl | h2
          · exact Or.inr (by rw [List.map_cons]; exact List.mem_cons_self _ _)
          · exact Or.inl h2
        · exact Or.inr (by rw [List.map_cons]; exact List.mem_cons_of_mem _ h)
      · rintro (h | h)
        · exact Or.inl (List.mem_cons_of_mem _ h)
        · rcases List.mem_cons.mp (by rw [List.map_cons] at h; exact h) with rfl | h2
          · exact Or.inl (List.mem_cons_self _ _)
          · exact Or.inr h2

theorem aw_lookup_ne (lb : Table) (seen : List String) (wid : String)
    (wname : String) (id : String) (h : wid ≠ id) :
    Assoc.lookupS (applyWinner lb seen (some wid) wname) id = Assoc.lookupS lb id :=
  Assoc.lookupS_setS_ne _ _ _ _ h

theorem aw_lookup_self (lb : Table) (seen : List String) (wid : String)
    (wname : String) :
    Assoc.lookupS (applyWinner lb seen (some wid) wname) wid
      = some (winnerStats lb seen wid wname) :=
  Assoc.lookupS_setS_self _ _ _

end Leaderboard

namespace Leaderboard

/-- Claim C6: per call, `recordGameResult` increments `gamesPlayed` by
exactly 1 for every participant id (de-duplicated within the call) and
upserts the display name (from the first occurrence of the id); a given
winner always gets `wins` incremented by exactly 1, and its `gamesPlayed`
ends exactly one higher — the extra winner increment applies exactly when
the winner is not among the de-duplicated participants, so a
winner-participant is not double counted; entries of every other id are
untouched. -/
theorem claim_C6_record_result (lb : Table) (parts : List Participant)
    (winnerId : Option String) (winnerName : String) :
    (∀ id, id ∈ parts.map Participant.userId →
        gamesOf (recordGameResult lb parts winnerId winnerName) id
          = gamesOf lb id + 1
        ∧ (winnerId ≠ some id →
            winsOf (recordGameResult lb parts winnerId winnerName) id
                = winsOf lb id
            ∧ nickOf (recordGameResult lb parts winnerId winnerName) id
                = some (normalizeNickname (firstNick parts id) id)))
    ∧ (∀ wid, winnerId = some wid →
        winsOf (recordGameResult lb parts winnerId winnerName) wid
            = winsOf lb wid + 1
        ∧ gamesOf (recordGameResult lb parts winnerId winnerName) wid
            = gamesOf lb wid + 1)
    ∧ ∀ id, id ∉ parts.map Participant.userId → winnerId ≠ some id →
        Assoc.lookupS (recordGameResult lb parts winnerId winnerName) id
          = Assoc.lookupS lb id := by
  refine ⟨?_, ?_, ?_⟩
  · intro id hmem
    have h1 := rp_mem parts [] lb id (by simp) hmem
    have hseen : id ∈ (recordParticipants parts [] lb).2 :=
      (rp_seen_iff parts [] lb id).mpr (Or.inr hmem)
    have hg1 : gamesOf (recordParticipants parts [] lb).1 id = gamesOf lb id + 1 := by
      unfold gamesOf
      rw [h1]
      rfl
    have hw1 : winsOf (recordParticipants parts [] lb).1 id = winsOf lb id := by
      unfold winsOf
      rw [h1]
      rfl
    have hn1 : nickOf (recordParticipants parts [] lb).1 id
        = some (normalizeNickname (firstNick parts id) id) := by
      unfold nickOf
      rw [h1]
      rfl
    constructor
    · unfold recordGameResult
      cases winnerId with
      | none => exact hg1
      | some wid =>
        by_cases hw : wid = id
        · subst hw
          unfold gamesOf
          rw [aw_lookup_self]
          show (winnerStats (recordParticipants parts [] lb).1
              (recordParticipants parts [] lb).2 wid winnerName).gamesPlayed
            = gamesOf lb wid + 1
          unfold winnerStats
          show gamesOf (recordParticipants parts [] lb).1 wid
              + (if wid ∈ (recordParticipants parts [] lb).2 then 0 else 1)
            = gamesOf lb wid + 1
          rw [if_pos hseen, hg1]
        · unfold gamesOf
          rw [aw_lookup_ne _ _ _ _ _ hw]
          unfold gamesOf at hg1
          exact hg1
    · intro hne
      unfold recordGameResult
      cases winnerId with
      | none => exact ⟨hw1, hn1⟩
      | some wid =>
        have hw : wid ≠ id := fun hc => hne (by rw [hc])
        constructor
        · unfold winsOf
          rw [aw_lookup_ne _ _ _ _ _ hw]
          unfold winsOf at hw1
          exact hw1
        · unfold nickOf
          rw [aw_lookup_ne _ _ _ _ _ hw]
          unfold nickOf at hn1
          exact hn1
  · intro wid hwid
    subst hwid
    have hwins1 : winsOf (recordParticipants parts [] lb).1 wid = winsOf lb wid := by
      by_cases hmem : wid ∈ parts.map Participant.userId
      · unfold winsOf
        rw [rp_mem parts [] lb wid (by simp) hmem]
        rfl
      · unfold winsOf
        rw [rp_notMem parts [] lb wid hmem]
    constructor
    · unfold recordGameResult winsOf
      rw [aw_lookup_self]
      show (winnerStats (recordParticipants parts [] lb).1
          (recordParticipants parts [] lb).2 wid winnerName).wins
        = winsOf lb wid + 1
      unfold winnerStats
      show winsOf (recordParticipants parts [] lb).1 wid + 1 = winsOf lb wid + 1
      rw [hwins1]
    · unfold recordGameResult gamesOf
      rw [aw_lookup_self]
      show (winnerStats (recordParticipants parts [] lb).1
          (recordParticipants parts [] lb).2 wid winnerName).gamesPlayed
        = gamesOf lb wid + 1
      unfold winnerStats
      show gamesOf (recordParticipants parts [] lb).1 wid
          + (if wid ∈ (recordParticipants parts [] lb).2 then 0 else 1)
        = gamesOf lb wid + 1
      by_cases hmem : wid ∈ parts.map Participant.userId
      · have hseen : wid ∈ (recordParticipants parts [] lb).2 :=
          (rp_seen_iff parts [] lb wid).mpr (Or.inr hmem)
        rw [if_pos hseen]
        have hg1 : gamesOf (recordParticipants parts [] lb).1 wid
            = gamesOf lb wid + 1 := by
          unfold gamesOf
          rw [rp_mem parts [] lb wid (by simp) hmem]
          rfl
        rw [hg1]
      · have hseen : wid ∉ (recordParticipants parts [] lb).2 := by
          intro hc
          rcases (rp_seen_iff parts [] lb wid).mp hc with hc2 | hc2
          · simp at hc2
          · exact hmem hc2
        rw [if_neg hseen]
        have hg1 : gamesOf (recordParticipants parts [] lb).1 wid
            = gamesOf lb wid := by
          unfold gamesOf
          rw [rp_notMem parts [] lb wid hmem]
        rw [hg1]
  · intro id hmem hne
    unfold recordGameResult
    have h1 := rp_notMem parts [] lb id hmem
    cases winnerId with
    | none => exact h1
    | some wid =>
      have hw : wid ≠ id := fun hc => hne (by rw [hc])
      rw [aw_lookup_ne _ _ _ _ _ hw]
      exact h1

theorem claim_C6_record_result_witness :
    ("p1" : String) ∈ ([⟨"p1", some "Alice"⟩, ⟨"p2", none⟩,
        ⟨"p1", some "Al"⟩] : List Participant).map Participant.userId
      ∧ gamesOf (recordGameResult [] [⟨"p1", some "Alice"⟩, ⟨"p2", none⟩,
          ⟨"p1", some "Al"⟩] (some "p3") "Winn") "p1" = gamesOf [] "p1" + 1 :=
  ⟨by decide,
    ((claim_C6_record_result [] [⟨"p1", some "Alice"⟩, ⟨"p2", none⟩,
      ⟨"p1", some "Al"⟩] (some "p3") "Winn").1 "p1" (by decide)).1⟩

end Leaderboard
